import Mathlib

/-!
Verification of the prompt-to-ffmpeg compiler of the video-agent repository.

The repository's compiler core is `buildFfmpegArgs` in
`src/video-agent/components/video-agent.tsx` (lines 288-372), which lowers a
plan (a list of operations plus an output format) into the ordered ffmpeg
argument list.  The plan-producing front end (`planEditingSteps`,
`clampAudioTempoChain`, imported from `@/lib/agent`) is not part of the
visible sources, so those definitions are modelled from the specification
(sections 4.1-4.3) and are marked as such in their doc comments.

Numbers are modelled as rationals.  JavaScript's `Number.prototype.toFixed`
is modelled by `toFixed`: round the magnitude half-up at the requested number
of decimal places and print sign, integer part, a dot and a zero-padded
fractional part.
-/

namespace VideoAgent

/-- The character for a decimal digit: `digitChar 3 = '3'`. -/
def digitChar (n : ℕ) : Char := Char.ofNat (48 + n)

/-- Decimal digit expansion of a natural number, most significant digit
first, written with explicit fuel so that it reduces by structural
recursion. -/
def natDigitsGo : ℕ → ℕ → List Char
  | 0, _ => []
  | fuel + 1, n =>
      if n < 10 then [digitChar n]
      else natDigitsGo fuel (n / 10) ++ [digitChar (n % 10)]

/-- Decimal digit expansion of a natural number, most significant digit
first. -/
def natDigits (n : ℕ) : List Char := natDigitsGo (n + 1) n

/-- Left-pad a digit list with `'0'` up to length `d`. -/
def padLeft (d : ℕ) (l : List Char) : List Char :=
  List.replicate (d - l.length) '0' ++ l

/-- Model of JavaScript's `Number.prototype.toFixed d`: the magnitude is
rounded half-up at `d` decimal places, and the result is printed as an
optional minus sign, the integer part, and (for `d > 0`) a dot followed by
exactly `d` fractional digits. -/
def toFixed (q : ℚ) (d : ℕ) : String :=
  let n : ℕ := (⌊|q| * (10 : ℚ) ^ d + 1 / 2⌋).toNat
  let body :=
    if d = 0 then natDigits (n / 10 ^ d)
    else natDigits (n / 10 ^ d) ++ '.' :: padLeft d (natDigits (n % 10 ^ d))
  ⟨if q < 0 then '-' :: body else body⟩

/-- Model of JavaScript's `Array.prototype.join(',')`. -/
def joinComma : List String → String
  | [] => ""
  | [s] => s
  | s :: rest => s ++ "," ++ joinComma rest

/-! ### The numeric clamper (spec section 4.3)

Modelled from the spec: `clampAudioTempoChain` lives in `@/lib/agent`,
which is not among the visible sources.  The spec's algorithm: a factor of 1
yields an empty chain; a factor already inside `[0.5, 2.0]` yields a
singleton chain; a factor above 2 is repeatedly divided by 2 (appending 2 to
the chain) until the remainder is in range; a factor below 0.5 repeatedly
has a 0.5 appended to the chain (the remainder being divided by 0.5, i.e.
doubled) until the remainder is in range.  The halving and doubling loops
are written with explicit fuel; the fuel supplied by the wrappers is always
sufficient (see the range lemmas below). -/

/-- Modelled from the spec: the halving loop for factors above 2.  Appends a
2 to the chain and divides the remainder by 2 until it is at most 2. -/
def tempoUpGo : ℕ → ℚ → List ℚ
  | 0, f => [f]
  | fuel + 1, f => if 2 < f then 2 :: tempoUpGo fuel (f / 2) else [f]

/-- Modelled from the spec: the doubling loop for factors below 0.5.
Appends a 0.5 to the chain and doubles the remainder until it is at least
0.5. -/
def tempoDownGo : ℕ → ℚ → List ℚ
  | 0, f => [f]
  | fuel + 1, f => if f < 1 / 2 then (1 / 2) :: tempoDownGo fuel (f * 2) else [f]

/-- Modelled from the spec: chain decomposition of a factor above 2. -/
def tempoChainUp (f : ℚ) : List ℚ := tempoUpGo (⌈f⌉.toNat) f

/-- Modelled from the spec: chain decomposition of a positive factor below
0.5. -/
def tempoChainDown (f : ℚ) : List ℚ := tempoDownGo f.den f

/-- Modelled from the spec (section 4.3): `clampAudioTempoChain` from
`@/lib/agent`, which is not among the visible sources.  Decomposes a
requested tempo factor into a chain of factors each within `[0.5, 2.0]`
whose product is the requested factor; a factor of 1 gives the empty
chain. -/
def clampAudioTempoChain (factor : ℚ) : List ℚ :=
  if factor = 1 then []
  else if 1 / 2 ≤ factor ∧ factor ≤ 2 then [factor]
  else if 2 < factor then tempoChainUp factor
  else tempoChainDown factor

/-! ### The data model (spec section 3) -/

/-- The two crop modes of the `Crop` operation. -/
inductive CropMode
  | square
  | portraitFill
deriving DecidableEq

/-- The closed set of semantic operations (spec section 3).  The `trim`
constructor models the source's `{kind: 'trim', start?, end?}` variant: the
compiler reads both fields through optional chaining, so both are optional
here (`endTime` models the source's `end` field). -/
inductive Operation
  | trim (start endTime : Option ℚ)
  | grayscale
  | speed (factor : ℚ)
  | mute
  | brightness (value : ℚ)
  | crop (mode : CropMode)
deriving DecidableEq

/-- The two output formats. -/
inductive OutputFormat
  | mp4
  | gif
deriving DecidableEq

/-- A plan: canonically ordered operations plus the output format. -/
structure AgentPlan where
  operations : List Operation
  outputExtension : OutputFormat
deriving DecidableEq

/-- Whether an operation is a trim. -/
def isTrim : Operation → Bool
  | Operation.trim _ _ => true
  | _ => false

/-! ### The filter-graph compiler (`buildFfmpegArgs`, video-agent.tsx 288-372)

`buildFfmpegArgs` is embedded segment by segment in the exact order the
source pushes arguments: seek, input, duration, video-filter directive,
audio directive, codec flags, output name. -/

/-- The source's `operations.find(op => op.kind === 'trim')`: the first trim
operation's `(start, end)` payload, if any (video-agent.tsx line 290). -/
def findTrim : List Operation → Option (Option ℚ × Option ℚ)
  | [] => none
  | Operation.trim s e :: _ => some (s, e)
  | _ :: rest => findTrim rest

/-- The seek segment (video-agent.tsx lines 291-297): if the first trim has
a numeric start greater than 0, emit `-ss` with the start at two decimal
places, before the input directive. -/
def seekPart : Option (Option ℚ × Option ℚ) → List String
  | some (some s, _) => if 0 < s then ["-ss", toFixed s 2] else []
  | _ => []

/-- The duration segment (video-agent.tsx lines 301-306): if the first trim
has a numeric end greater than 0 and `max 0 (end - (start ?? 0))` is
positive, emit `-t` with that duration at two decimal places, after the
input directive. -/
def durPart : Option (Option ℚ × Option ℚ) → List String
  | some (s, some e) =>
      if 0 < e then
        if 0 < max 0 (e - s.getD 0) then ["-t", toFixed (max 0 (e - s.getD 0)) 2]
        else []
      else []
  | _ => []

/-- Rendering of one audio tempo primitive invocation.  The source joins the
chain returned by `clampAudioTempoChain` with commas; per spec section 4.4
step 5 each chain element is one invocation of the tempo primitive. -/
def renderTempo (t : ℚ) : String := "atempo=" ++ toFixed t 2

/-- One step of the source's `operations.forEach` loop (video-agent.tsx
lines 312-344), updating the accumulated video filters, audio filters and
disable-audio flag.  Trim operations fall through the switch untouched. -/
def stepFilters (acc : List String × List String × Bool) (op : Operation) :
    List String × List String × Bool :=
  match op with
  | Operation.grayscale => (acc.1 ++ ["hue=s=0"], acc.2.1, acc.2.2)
  | Operation.speed f =>
      (acc.1 ++ ["setpts=" ++ toFixed (1 / f) 4 ++ "*PTS"],
       acc.2.1 ++
         (if clampAudioTempoChain f = [] then []
          else [joinComma ((clampAudioTempoChain f).map renderTempo)]),
       acc.2.2)
  | Operation.mute => (acc.1, acc.2.1, true)
  | Operation.brightness v =>
      (acc.1 ++ ["eq=brightness=" ++ toFixed v 2], acc.2.1, acc.2.2)
  | Operation.crop CropMode.square =>
      (acc.1 ++ ["crop=min(iw,ih):min(iw,ih)"], acc.2.1, acc.2.2)
  | Operation.crop CropMode.portraitFill =>
      (acc.1 ++ ["scale=720:-2:force_original_aspect_ratio=increase,crop=720:1280"],
       acc.2.1, acc.2.2)
  | Operation.trim _ _ => acc

/-- The source's `forEach` loop over the operations: the collected video
filters, audio filters and disable-audio flag. -/
def collectFilters (ops : List Operation) : List String × List String × Bool :=
  ops.foldl stepFilters ([], [], false)

/-- The full video-filter chain: the user filters in operation order, with
`fps=12` appended last for the gif format (video-agent.tsx lines 346-348). -/
def videoFiltersOf (ops : List Operation) (format : OutputFormat) : List String :=
  (collectFilters ops).1 ++ (if format = OutputFormat.gif then ["fps=12"] else [])

/-- The video-filter directive (video-agent.tsx lines 350-352): emitted only
when the chain is non-empty, joined with commas. -/
def vfDirective (ops : List Operation) (format : OutputFormat) : List String :=
  if videoFiltersOf ops format = [] then []
  else ["-vf", joinComma (videoFiltersOf ops format)]

/-- The audio directive (video-agent.tsx lines 354-358): `-an` when audio is
disabled, otherwise `-af` with the joined audio filters when any exist. -/
def audioDirective (audioFilters : List String) (disableAudio : Bool) : List String :=
  if disableAudio then ["-an"]
  else if audioFilters = [] then [] else ["-af", joinComma audioFilters]

/-- The codec segment (video-agent.tsx lines 360-368): fixed mp4 codec flags
with the audio codec omitted when audio is disabled, or the gif loop flag. -/
def codecPart : OutputFormat → Bool → List String
  | OutputFormat.mp4, disableAudio =>
      ["-c:v", "libx264", "-preset", "veryfast", "-pix_fmt", "yuv420p"]
      ++ (if disableAudio then [] else ["-c:a", "aac"])
      ++ ["-movflags", "faststart"]
  | OutputFormat.gif, _ => ["-loop", "0"]

/-- The compiler `buildFfmpegArgs` (video-agent.tsx lines 288-372): the
ordered ffmpeg argument list for a plan's operations and output format. -/
def buildFfmpegArgs (operations : List Operation) (format : OutputFormat)
    (input output : String) : List String :=
  seekPart (findTrim operations)
  ++ ["-i", input]
  ++ durPart (findTrim operations)
  ++ vfDirective operations format
  ++ audioDirective (collectFilters operations).2.1 (collectFilters operations).2.2
  ++ codecPart format (collectFilters operations).2.2
  ++ [output]

/-! ### The prompt parser and plan assembler (spec sections 4.1 and 4.2)

Modelled from the spec: `planEditingSteps` lives in `@/lib/agent`, which is
not among the visible sources.  Recognition is case-insensitive, each rule
is an independent pattern matcher over the whole prompt, the first match of
a numeric pattern wins, and the assembler places the surviving operations in
canonical order (trim first, then grayscale, speed, brightness, crop,
mute) with the output format selected by a `gif` mention. -/

/-- Lower-case an ASCII letter, identity elsewhere. -/
def lowerChar (c : Char) : Char :=
  if 65 ≤ c.toNat ∧ c.toNat ≤ 90 then Char.ofNat (c.toNat + 32) else c

/-- Case normalisation of a prompt: the character list, lower-cased. -/
def normalize (s : String) : List Char := s.data.map lowerChar

/-- Whether `pat` is a leading piece of `text`. -/
def beginsWith : List Char → List Char → Bool
  | [], _ => true
  | _ :: _, [] => false
  | p :: ps, c :: cs => p = c && beginsWith ps cs

/-- Whether `pat` occurs anywhere in `text`. -/
def containsPat (pat : List Char) : List Char → Bool
  | [] => beginsWith pat []
  | c :: cs => beginsWith pat (c :: cs) || containsPat pat cs

/-- Whether any of the patterns occurs in the text. -/
def containsAny (pats : List (List Char)) (text : List Char) : Bool :=
  pats.any (fun p => containsPat p text)

/-- The numeric value of a decimal digit character, if it is one. -/
def digitVal (c : Char) : Option ℕ :=
  if 48 ≤ c.toNat ∧ c.toNat ≤ 57 then some (c.toNat - 48) else none

/-- Greedily read decimal digits: the value read, the number of digits read
and the rest of the text. -/
def takeDigits : List Char → ℕ × ℕ × List Char
  | [] => (0, 0, [])
  | c :: cs =>
      match digitVal c with
      | some d =>
          match takeDigits cs with
          | (v, n, r) => (d * 10 ^ n + v, n + 1, r)
      | none => (0, 0, c :: cs)

/-- Read a decimal number (digits with an optional fractional part) at the
head of the text: its value as a rational and the rest of the text. -/
def parseNumber (l : List Char) : Option (ℚ × List Char) :=
  match takeDigits l with
  | (_, 0, _) => none
  | (v, _, rest) =>
      match rest with
      | '.' :: cs =>
          match takeDigits cs with
          | (_, 0, _) => some ((v : ℚ), rest)
          | (fv, fn, rest2) => some ((v : ℚ) + (fv : ℚ) / 10 ^ fn, rest2)
      | _ => some ((v : ℚ), rest)

/-- The value of the first occurrence of `pat` that is immediately followed
by a number; scanning continues past occurrences not followed by one. -/
def numberAfter (pat : List Char) : List Char → Option ℚ
  | [] => none
  | c :: cs =>
      match (if beginsWith pat (c :: cs) then
               parseNumber (List.drop pat.length (c :: cs))
             else none) with
      | some (v, _) => some v
      | none => numberAfter pat cs

/-- Like `numberAfter`, but the number must be immediately followed by the
given suffix character (the spec's time mentions are written `Xs`). -/
def numberSuffixAfter (pat : List Char) (suf : Char) : List Char → Option ℚ
  | [] => none
  | c :: cs =>
      match (if beginsWith pat (c :: cs) then
               parseNumber (List.drop pat.length (c :: cs))
             else none) with
      | some (v, r) => if r.head? = some suf then some v else numberSuffixAfter pat suf cs
      | none => numberSuffixAfter pat suf cs

/-- The first number in the text that is immediately followed by the given
suffix character (the spec's speed mentions are written `Nx`). -/
def numberBefore (suf : Char) : List Char → Option ℚ
  | [] => none
  | c :: cs =>
      match parseNumber (c :: cs) with
      | some (v, r) => if r.head? = some suf then some v else numberBefore suf cs
      | none => numberBefore suf cs

/-- Modelled from the spec: the trim start phrases, first match wins
(`"trim the first N seconds"`, `"cut from Xs"`, `"between Xs and Ys"`). -/
def trimStartNum (t : List Char) : Option ℚ :=
  match numberAfter ("trim the first ").data t with
  | some v => some v
  | none =>
      match numberSuffixAfter ("cut from ").data 's' t with
      | some v => some v
      | none => numberSuffixAfter ("between ").data 's' t

/-- Modelled from the spec: the trim end phrases (`"to Ys"`, the `"and Ys"`
half of `"between Xs and Ys"`). -/
def trimEndNum (t : List Char) : Option ℚ :=
  match numberSuffixAfter (" to ").data 's' t with
  | some v => some v
  | none => numberSuffixAfter (" and ").data 's' t

/-- Modelled from the spec (section 4.1): the extracted trim window.  A
missing start defaults to 0; an end not strictly greater than the start
rejects the whole operation (omission, not an error). -/
def extractTrim (t : List Char) : Option (Option ℚ × Option ℚ) :=
  match trimStartNum t, trimEndNum t with
  | none, none => none
  | s, none => some (some (s.getD 0), none)
  | s, some e => if e ≤ s.getD 0 then none else some (some (s.getD 0), some e)

/-- Modelled from the spec: a grayscale mention. -/
def hasGrayscale (t : List Char) : Bool :=
  containsAny [("black and white").data, ("grayscale").data,
               ("greyscale").data, ("monochrome").data] t

/-- Modelled from the spec: a mute mention. -/
def hasMute (t : List Char) : Bool :=
  containsAny [("mute").data, ("remove audio").data,
               ("no audio").data, ("silent").data] t

/-- Modelled from the spec: a gif mention selects the gif output format. -/
def hasGif (t : List Char) : Bool := containsPat ("gif").data t

/-- Modelled from the spec: the speed factor is the first multiplier mention
`Nx`; the factor must be positive. -/
def extractSpeed (t : List Char) : Option ℚ :=
  match numberBefore 'x' t with
  | some v => if 0 < v then some v else none
  | none => none

/-- Clamp a brightness value to the documented `[-1, 1]` range. -/
def clampBrightness (v : ℚ) : ℚ := max (-1) (min 1 v)

/-- Modelled from the spec: a brightness delta from `"brighten by N"` or
`"darken by N"`, clamped to the documented range. -/
def extractBrightness (t : List Char) : Option ℚ :=
  match numberAfter ("brighten by ").data t with
  | some v => some (clampBrightness v)
  | none =>
      match numberAfter ("darken by ").data t with
      | some v => some (clampBrightness (-v))
      | none => none

/-- Modelled from the spec: the crop mode — `"square"` wins, otherwise any
of `"portrait"`, `"9:16"`, `"vertical"` selects the portrait fill. -/
def extractCrop (t : List Char) : Option CropMode :=
  if containsPat ("square").data t then some CropMode.square
  else if containsAny [("portrait").data, ("9:16").data, ("vertical").data] t then
    some CropMode.portraitFill
  else none

/-- Modelled from the spec (sections 4.1 and 4.2): `planEditingSteps` from
`@/lib/agent`, which is not among the visible sources.  Runs every
recognition rule independently over the normalised prompt and assembles the
surviving operations in canonical order: trim first, then grayscale, speed,
brightness, crop, mute; a gif mention selects the gif output format.  The
function is total: an unrecognised prompt yields the empty plan. -/
def planEditingSteps (prompt : String) : AgentPlan :=
  let t := normalize prompt
  { operations :=
      (match extractTrim t with
       | some (s, e) => [Operation.trim s e]
       | none => [])
      ++ (if hasGrayscale t then [Operation.grayscale] else [])
      ++ (match extractSpeed t with
          | some f => [Operation.speed f]
          | none => [])
      ++ (match extractBrightness t with
          | some v => [Operation.brightness v]
          | none => [])
      ++ (match extractCrop t with
          | some m => [Operation.crop m]
          | none => [])
      ++ (if hasMute t then [Operation.mute] else []),
    outputExtension := if hasGif t then OutputFormat.gif else OutputFormat.mp4 }

/-- Whether any recognition rule fires on the prompt. -/
def recognizesAny (prompt : String) : Bool :=
  (extractTrim (normalize prompt)).isSome
  || hasGrayscale (normalize prompt)
  || (extractSpeed (normalize prompt)).isSome
  || (extractBrightness (normalize prompt)).isSome
  || (extractCrop (normalize prompt)).isSome
  || hasMute (normalize prompt)
  || hasGif (normalize prompt)

/-- The canonical position of each operation kind (spec section 4.2): trim
conceptually first, then the filter-relevant order grayscale, speed,
brightness, crop, mute. -/
def rank : Operation → ℕ
  | Operation.trim _ _ => 0
  | Operation.grayscale => 1
  | Operation.speed _ => 2
  | Operation.brightness _ => 3
  | Operation.crop _ => 4
  | Operation.mute => 5

/-! ### Character-level facts

Every string produced by `toFixed` consists of a minus sign, a dot and
decimal digits only, and every video or audio filter string starts with a
letter.  These facts separate the emitted values from the dash-initial flag
tokens. -/

/-- The characters `toFixed` can produce: minus, dot, decimal digits. -/
def numChar (c : Char) : Prop := c = '-' ∨ c = '.' ∨ (48 ≤ c.toNat ∧ c.toNat ≤ 57)

instance (c : Char) : Decidable (numChar c) :=
  inferInstanceAs (Decidable (c = '-' ∨ c = '.' ∨ (48 ≤ c.toNat ∧ c.toNat ≤ 57)))

theorem digitChar_numChar (n : ℕ) (h : n < 10) : numChar (digitChar n) := by
  interval_cases n <;> decide

theorem natDigitsGo_numChar (fuel : ℕ) :
    ∀ n : ℕ, ∀ c ∈ natDigitsGo fuel n, numChar c := by
  induction fuel with
  | zero => intro n c hc; simp [natDigitsGo] at hc
  | succ fuel ih =>
      intro n c hc
      simp only [natDigitsGo] at hc
      split at hc
      · next hlt =>
          rcases List.mem_singleton.mp hc with rfl
          exact digitChar_numChar _ hlt
      · rcases List.mem_append.mp hc with h | h
        · exact ih _ _ h
        · rcases List.mem_singleton.mp h with rfl
          exact digitChar_numChar _ (Nat.mod_lt _ (by norm_num))

theorem natDigits_numChar (n : ℕ) : ∀ c ∈ natDigits n, numChar c :=
  natDigitsGo_numChar _ _

theorem padLeft_numChar (d : ℕ) (l : List Char) (hl : ∀ c ∈ l, numChar c) :
    ∀ c ∈ padLeft d l, numChar c := by
  intro c hc
  rcases List.mem_append.mp hc with h | h
  · rcases List.eq_of_mem_replicate h with rfl; decide
  · exact hl _ h

theorem toFixed_numChar (q : ℚ) (d : ℕ) : ∀ c ∈ (toFixed q d).data, numChar c := by
  intro c hc
  simp only [toFixed] at hc
  split at hc
  · rcases List.mem_cons.mp hc with rfl | hc2
    · decide
    · split at hc2
      · exact natDigits_numChar _ _ hc2
      · rcases List.mem_append.mp hc2 with h | h
        · exact natDigits_numChar _ _ h
        · rcases List.mem_cons.mp h with rfl | h2
          · decide
          · exact padLeft_numChar _ _ (natDigits_numChar _) _ h2
  · split at hc
    · exact natDigits_numChar _ _ hc
    · rcases List.mem_append.mp hc with h | h
      · exact natDigits_numChar _ _ h
      · rcases List.mem_cons.mp h with rfl | h2
        · decide
        · exact padLeft_numChar _ _ (natDigits_numChar _) _ h2

/-- The function `toFixed` never produces a string holding a character
outside its character set; in particular it never produces a flag token
such as `"-af"`. -/
theorem toFixed_ne (q : ℚ) (d : ℕ) (s : String)
    (h : ¬ ∀ c ∈ s.data, numChar c) : toFixed q d ≠ s := by
  intro he
  exact h (he ▸ toFixed_numChar q d)

/-- A string that is non-empty and does not start with a dash. -/
def headOk (s : String) : Prop := s.data ≠ [] ∧ s.data.head? ≠ some '-'

instance (s : String) : Decidable (headOk s) :=
  inferInstanceAs (Decidable (s.data ≠ [] ∧ s.data.head? ≠ some '-'))

theorem headOk_append (s t : String) (h : headOk s) : headOk (s ++ t) := by
  obtain ⟨h1, h2⟩ := h
  rcases hd : s.data with _ | ⟨c, cs⟩
  · exact absurd hd h1
  · constructor
    · simp [String.data_append, hd]
    · simp only [String.data_append, hd, List.cons_append, List.head?_cons]
      rw [hd] at h2
      simpa using h2

theorem joinComma_headOk (l : List String) (hne : l ≠ [])
    (h : ∀ s ∈ l, headOk s) : headOk (joinComma l) := by
  induction l with
  | nil => exact absurd rfl hne
  | cons a rest ih =>
      rcases rest with _ | ⟨b, r⟩
      · simpa [joinComma] using h a (by simp)
      · show headOk (a ++ "," ++ joinComma (b :: r))
        exact headOk_append _ _ (headOk_append _ _ (h a (by simp)))

/-! ### Structure of the filter-collecting loop -/

theorem stepFilters_decomp (acc : List String × List String × Bool) (op : Operation) :
    stepFilters acc op =
      (acc.1 ++ (stepFilters ([], [], false) op).1,
       acc.2.1 ++ (stepFilters ([], [], false) op).2.1,
       (acc.2.2 || (stepFilters ([], [], false) op).2.2)) := by
  rcases op with ⟨s, e⟩ | _ | f | _ | v | m
  · simp [stepFilters]
  · simp [stepFilters]
  · simp [stepFilters]
  · simp [stepFilters]
  · simp [stepFilters]
  · cases m <;> simp [stepFilters]

theorem foldl_stepFilters (l : List Operation) (acc : List String × List String × Bool) :
    l.foldl stepFilters acc =
      (acc.1 ++ (collectFilters l).1,
       acc.2.1 ++ (collectFilters l).2.1,
       (acc.2.2 || (collectFilters l).2.2)) := by
  induction l generalizing acc with
  | nil => simp [collectFilters]
  | cons op rest ih =>
      simp only [List.foldl_cons, collectFilters] at *
      rw [ih (stepFilters acc op), ih (stepFilters ([], [], false) op),
          stepFilters_decomp acc op]
      simp [List.append_assoc, Bool.or_assoc]

theorem collectFilters_append (xs ys : List Operation) :
    collectFilters (xs ++ ys) =
      ((collectFilters xs).1 ++ (collectFilters ys).1,
       (collectFilters xs).2.1 ++ (collectFilters ys).2.1,
       ((collectFilters xs).2.2 || (collectFilters ys).2.2)) := by
  show (xs ++ ys).foldl stepFilters ([], [], false) = _
  rw [List.foldl_append, foldl_stepFilters]
  rfl

theorem collectFilters_mute (ops : List Operation) (h : Operation.mute ∈ ops) :
    (collectFilters ops).2.2 = true := by
  obtain ⟨l1, l2, rfl⟩ := List.append_of_mem h
  rw [collectFilters_append]
  have : (collectFilters (Operation.mute :: l2)).2.2 = true := by
    show ((Operation.mute :: l2).foldl stepFilters ([], [], false)).2.2 = true
    rw [List.foldl_cons, foldl_stepFilters]
    rfl
  simp [this]

theorem collectFilters_vf_headOk (ops : List Operation) :
    ∀ s ∈ (collectFilters ops).1, headOk s := by
  induction ops with
  | nil => simp [collectFilters]
  | cons op rest ih =>
      intro s hs
      have : collectFilters (op :: rest) =
          ((collectFilters [op]).1 ++ (collectFilters rest).1,
           (collectFilters [op]).2.1 ++ (collectFilters rest).2.1,
           ((collectFilters [op]).2.2 || (collectFilters rest).2.2)) :=
        collectFilters_append [op] rest
      rw [this] at hs
      rcases List.mem_append.mp hs with h | h
      · rcases op with ⟨a, b⟩ | _ | f | _ | v | m
        · simp [collectFilters, stepFilters] at h
        · rcases (by simpa [collectFilters, stepFilters] using h : s = "hue=s=0") with rfl
          decide
        · rcases (by simpa [collectFilters, stepFilters] using h :
              s = "setpts=" ++ toFixed (1 / f) 4 ++ "*PTS") with rfl
          exact headOk_append _ _ (headOk_append _ _ (by decide))
        · simp [collectFilters, stepFilters] at h
        · rcases (by simpa [collectFilters, stepFilters] using h :
              s = "eq=brightness=" ++ toFixed v 2) with rfl
          exact headOk_append _ _ (by decide)
        · cases m
          · rcases (by simpa [collectFilters, stepFilters] using h :
                s = "crop=min(iw,ih):min(iw,ih)") with rfl
            decide
          · rcases (by simpa [collectFilters, stepFilters] using h :
                s = "scale=720:-2:force_original_aspect_ratio=increase,crop=720:1280") with rfl
            decide
      · exact ih _ h

theorem collectFilters_af_headOk (ops : List Operation) :
    ∀ s ∈ (collectFilters ops).2.1, headOk s := by
  induction ops with
  | nil => simp [collectFilters]
  | cons op rest ih =>
      intro s hs
      have : collectFilters (op :: rest) =
          ((collectFilters [op]).1 ++ (collectFilters rest).1,
           (collectFilters [op]).2.1 ++ (collectFilters rest).2.1,
           ((collectFilters [op]).2.2 || (collectFilters rest).2.2)) :=
        collectFilters_append [op] rest
      rw [this] at hs
      rcases List.mem_append.mp hs with h | h
      · rcases op with ⟨a, b⟩ | _ | f | _ | v | m
        · simp [collectFilters, stepFilters] at h
        · simp [collectFilters, stepFilters] at h
        · by_cases hc : clampAudioTempoChain f = []
          · simp [collectFilters, stepFilters, hc] at h
          · have hs2 : s = joinComma ((clampAudioTempoChain f).map renderTempo) := by
              simpa [collectFilters, stepFilters, hc] using h
            subst hs2
            refine joinComma_headOk _ (by simpa using hc) ?_
            intro x hx
            rcases List.mem_map.mp hx with ⟨t, _, rfl⟩
            exact headOk_append _ _ (by decide)
        · simp [collectFilters, stepFilters] at h
        · simp [collectFilters, stepFilters] at h
        · cases m <;> simp [collectFilters, stepFilters] at h
      · exact ih _ h

theorem videoFiltersOf_headOk (ops : List Operation) (format : OutputFormat) :
    ∀ s ∈ videoFiltersOf ops format, headOk s := by
  intro s hs
  rcases List.mem_append.mp hs with h | h
  · exact collectFilters_vf_headOk ops _ h
  · split at h
    · rcases List.mem_singleton.mp h with rfl; decide
    · simp at h

/-! ### Segment shapes and membership -/

theorem mem_seekPart (t : Option (Option ℚ × Option ℚ)) (x : String)
    (h : x ∈ seekPart t) : x = "-ss" ∨ ∃ q : ℚ, x = toFixed q 2 := by
  rcases t with _ | ⟨s, e⟩
  · simp [seekPart] at h
  · rcases s with _ | s
    · simp [seekPart] at h
    · simp only [seekPart] at h
      split at h
      · rcases List.mem_cons.mp h with rfl | h2
        · exact Or.inl rfl
        · rcases List.mem_singleton.mp h2 with rfl
          exact Or.inr ⟨s, rfl⟩
      · simp at h

theorem durPart_shape (t : Option (Option ℚ × Option ℚ)) :
    durPart t = [] ∨ ∃ d : ℚ, 0 < d ∧ durPart t = ["-t", toFixed d 2] := by
  rcases t with _ | ⟨s, e⟩
  · exact Or.inl rfl
  · rcases e with _ | e
    · exact Or.inl rfl
    · simp only [durPart]
      split
      · split
        · next hpos => exact Or.inr ⟨_, hpos, rfl⟩
        · exact Or.inl rfl
      · exact Or.inl rfl

theorem mem_durPart (t : Option (Option ℚ × Option ℚ)) (x : String)
    (h : x ∈ durPart t) : x = "-t" ∨ ∃ q : ℚ, x = toFixed q 2 := by
  rcases durPart_shape t with hsh | ⟨d, _, hsh⟩
  · rw [hsh] at h; simp at h
  · rw [hsh] at h
    rcases List.mem_cons.mp h with rfl | h2
    · exact Or.inl rfl
    · rcases List.mem_singleton.mp h2 with rfl
      exact Or.inr ⟨d, rfl⟩

theorem mem_vfDirective (ops : List Operation) (format : OutputFormat) (x : String)
    (h : x ∈ vfDirective ops format) : x = "-vf" ∨ headOk x := by
  simp only [vfDirective] at h
  split at h
  · simp at h
  · next hne =>
      rcases List.mem_cons.mp h with rfl | h2
      · exact Or.inl rfl
      · rcases List.mem_singleton.mp h2 with rfl
        exact Or.inr (joinComma_headOk _ hne (videoFiltersOf_headOk ops format))

theorem mem_audioDirective (ops : List Operation) (da : Bool) (x : String)
    (h : x ∈ audioDirective (collectFilters ops).2.1 da) :
    x = "-an" ∨ x = "-af" ∨ headOk x := by
  simp only [audioDirective] at h
  split at h
  · rcases List.mem_singleton.mp h with rfl
    exact Or.inl rfl
  · split at h
    · simp at h
    · next hne =>
        rcases List.mem_cons.mp h with rfl | h2
        · exact Or.inr (Or.inl rfl)
        · rcases List.mem_singleton.mp h2 with rfl
          exact Or.inr (Or.inr (joinComma_headOk _ hne (collectFilters_af_headOk ops)))

theorem mem_codecPart (format : OutputFormat) (da : Bool) (x : String)
    (h : x ∈ codecPart format da) :
    x ∈ (["-c:v", "libx264", "-preset", "veryfast", "-pix_fmt", "yuv420p",
          "-c:a", "aac", "-movflags", "faststart", "-loop", "0"] : List String) := by
  cases format <;> cases da <;> simp_all [codecPart] <;> tauto

theorem codecPart_muted_no_ca (format : OutputFormat) :
    "-c:a" ∉ codecPart format true := by
  cases format <;> decide

/-- Any member of the compiled argument list falls in one of its seven
segments. -/
theorem mem_args_cases (ops : List Operation) (format : OutputFormat)
    (input output x : String) (h : x ∈ buildFfmpegArgs ops format input output) :
    x ∈ seekPart (findTrim ops) ∨ x = "-i" ∨ x = input
      ∨ x ∈ durPart (findTrim ops)
      ∨ x ∈ vfDirective ops format
      ∨ x ∈ audioDirective (collectFilters ops).2.1 (collectFilters ops).2.2
      ∨ x ∈ codecPart format (collectFilters ops).2.2
      ∨ x = output := by
  simp only [buildFfmpegArgs, List.append_assoc, List.mem_append, List.mem_cons,
    List.mem_singleton, List.not_mem_nil, or_false] at h
  tauto

/-- Evaluation helper for `toFixed` at concrete non-negative inputs: once the
rounded scaled magnitude is known, the remaining digit rendering is pure
natural-number computation. -/
theorem toFixed_eq (q : ℚ) (d n : ℕ) (h0 : ¬ q < 0)
    (h : (⌊|q| * (10 : ℚ) ^ d + 1 / 2⌋).toNat = n) (s : String)
    (hs : String.mk (if d = 0 then natDigits (n / 10 ^ d)
          else natDigits (n / 10 ^ d) ++ '.' :: padLeft d (natDigits (n % 10 ^ d))) = s) :
    toFixed q d = s := by
  subst hs
  simp only [toFixed, h0, if_false, h]

theorem toFixed_five_two : toFixed 5 2 = "5.00" :=
  toFixed_eq 5 2 500 (by norm_num) (by norm_num; decide) _ (by decide)

theorem toFixed_five_sixths : toFixed (5 / 6 : ℚ) 4 = "0.8333" := by
  refine toFixed_eq (5 / 6) 4 8333 (by norm_num) ?_ _ (by decide)
  rw [show |(5 : ℚ) / 6| = 5 / 6 from abs_of_nonneg (by norm_num)]
  rw [show ((5 : ℚ) / 6 * 10 ^ 4 + 1 / 2) = 50003 / 6 by norm_num]
  rw [show (⌊(50003 : ℚ) / 6⌋ = 8333) by rw [Int.floor_eq_iff]; constructor <;> norm_num]
  rfl

theorem clampAudioTempoChain_six_fifths : clampAudioTempoChain (6 / 5) = [6 / 5] := by
  rw [clampAudioTempoChain]
  rw [if_neg (by norm_num), if_pos (by constructor <;> norm_num)]

/-! ### Further structure lemmas -/

theorem collectFilters_cons (op : Operation) (l : List Operation) :
    collectFilters (op :: l) =
      ((stepFilters ([], [], false) op).1 ++ (collectFilters l).1,
       (stepFilters ([], [], false) op).2.1 ++ (collectFilters l).2.1,
       ((stepFilters ([], [], false) op).2.2 || (collectFilters l).2.2)) := by
  show (op :: l).foldl stepFilters ([], [], false) = _
  rw [List.foldl_cons, foldl_stepFilters]

/-- Trim operations fall through the filter-collecting switch, so deleting
them does not change the collected filters. -/
theorem collectFilters_filter_trims (l : List Operation) :
    collectFilters (l.filter (fun op => !isTrim op)) = collectFilters l := by
  induction l with
  | nil => rfl
  | cons op rest ih =>
      rcases hop : isTrim op with _ | _
      · rw [show (op :: rest).filter (fun op => !isTrim op)
            = op :: rest.filter (fun op => !isTrim op) by simp [List.filter_cons, hop]]
        rw [collectFilters_cons, collectFilters_cons, ih]
      · rcases op with ⟨a, b⟩ | _ | f | _ | v | m <;> simp [isTrim] at hop
        rw [show (Operation.trim a b :: rest).filter (fun op => !isTrim op)
            = rest.filter (fun op => !isTrim op) by simp [List.filter_cons, isTrim]]
        rw [collectFilters_cons, ih]
        simp [stepFilters]

/-- The function `findTrim` skips a trim-free head segment. -/
theorem findTrim_append_notrim (front rest : List Operation)
    (h : ∀ op ∈ front, isTrim op = false) :
    findTrim (front ++ rest) = findTrim rest := by
  induction front with
  | nil => rfl
  | cons op f ih =>
      have hop := h op (by simp)
      rcases op with ⟨a, b⟩ | _ | fq | _ | v | m
      · simp [isTrim] at hop
      all_goals
        simpa [findTrim] using ih (fun o ho => h o (by simp [ho]))

/-- A grayscale operation contributes its desaturation filter to the
collected video-filter chain. -/
theorem collectFilters_grayscale (ops : List Operation)
    (h : Operation.grayscale ∈ ops) : "hue=s=0" ∈ (collectFilters ops).1 := by
  obtain ⟨l1, l2, rfl⟩ := List.append_of_mem h
  rw [collectFilters_append, collectFilters_cons]
  simp [stepFilters]

/-!
## The claims

Each claim of the specification review is stated and settled below, one
theorem per claim, in terms of the embedded definitions above.
-/

/-- C1: for the plan holding `Trim{start=5, end=none}` together with
`[Grayscale, Speed{1.2}, Mute]` (the plan the spec requires for the default
prompt), the compiled argument list contains a video-filter directive whose
value is exactly `"hue=s=0,setpts=0.8333*PTS"`, contains the disable-audio
directive `-an`, and contains no duration directive `-t`. -/
theorem c1_end_to_end_compiled_args :
    (∃ pre post,
        buildFfmpegArgs [Operation.trim (some 5) none, Operation.grayscale,
            Operation.speed (6 / 5), Operation.mute] OutputFormat.mp4
            "input.mp4" "output.mp4"
          = pre ++ "-vf" :: "hue=s=0,setpts=0.8333*PTS" :: post)
    ∧ "-an" ∈ buildFfmpegArgs [Operation.trim (some 5) none, Operation.grayscale,
        Operation.speed (6 / 5), Operation.mute] OutputFormat.mp4
        "input.mp4" "output.mp4"
    ∧ "-t" ∉ buildFfmpegArgs [Operation.trim (some 5) none, Operation.grayscale,
        Operation.speed (6 / 5), Operation.mute] OutputFormat.mp4
        "input.mp4" "output.mp4" := by
  have hargs : buildFfmpegArgs [Operation.trim (some 5) none, Operation.grayscale,
      Operation.speed (6 / 5), Operation.mute] OutputFormat.mp4 "input.mp4" "output.mp4"
      = ["-ss", "5.00", "-i", "input.mp4", "-vf", "hue=s=0,setpts=0.8333*PTS", "-an",
         "-c:v", "libx264", "-preset", "veryfast", "-pix_fmt", "yuv420p",
         "-movflags", "faststart", "output.mp4"] := by
    norm_num [buildFfmpegArgs, findTrim, seekPart, durPart, vfDirective, videoFiltersOf,
      collectFilters, stepFilters, audioDirective, codecPart, joinComma,
      toFixed_five_two, toFixed_five_sixths, clampAudioTempoChain_six_fifths]
    decide
  refine ⟨⟨["-ss", "5.00", "-i", "input.mp4"],
      ["-an", "-c:v", "libx264", "-preset", "veryfast", "-pix_fmt", "yuv420p",
       "-movflags", "faststart", "output.mp4"], by rw [hargs]; rfl⟩,
    by rw [hargs]; decide, by rw [hargs]; decide⟩

/-- C10: the empty plan with the mp4 format compiles to exactly the full
re-encode argument list, with no seek, duration, filter or disable-audio
directives, and the output name last. -/
theorem c10_empty_plan_compilation (input output : String) :
    buildFfmpegArgs [] OutputFormat.mp4 input output
      = ["-i", input, "-c:v", "libx264", "-preset", "veryfast", "-pix_fmt", "yuv420p",
         "-c:a", "aac", "-movflags", "faststart", output]
    ∧ (buildFfmpegArgs [] OutputFormat.mp4 input output).getLast? = some output :=
  ⟨rfl, rfl⟩

/-- C2: mute dominance — whenever a plan contains `Mute`, the compiled
arguments contain the disable-audio directive `-an` and contain neither an
audio-filter directive `-af` nor an audio-codec directive `-c:a`, for every
operation list and both output formats (the input and output names are
assumed to not collide with the two flag tokens). -/
theorem c2_mute_dominance (ops : List Operation) (format : OutputFormat)
    (input output : String) (hmute : Operation.mute ∈ ops)
    (hin1 : input ≠ "-af") (hin2 : input ≠ "-c:a")
    (hout1 : output ≠ "-af") (hout2 : output ≠ "-c:a") :
    "-an" ∈ buildFfmpegArgs ops format input output
    ∧ "-af" ∉ buildFfmpegArgs ops format input output
    ∧ "-c:a" ∉ buildFfmpegArgs ops format input output := by
  have hda : (collectFilters ops).2.2 = true := collectFilters_mute ops hmute
  have haudio : audioDirective (collectFilters ops).2.1 (collectFilters ops).2.2
      = ["-an"] := by rw [hda]; rfl
  refine ⟨?_, ?_, ?_⟩
  · simp [buildFfmpegArgs, haudio]
  · intro hmem
    rcases mem_args_cases _ _ _ _ _ hmem with h | h | h | h | h | h | h | h
    · rcases mem_seekPart _ _ h with h1 | ⟨q, h1⟩
      · exact absurd h1 (by decide)
      · exact toFixed_ne q 2 _ (by decide) h1.symm
    · exact absurd h (by decide)
    · exact hin1 h.symm
    · rcases mem_durPart _ _ h with h1 | ⟨q, h1⟩
      · exact absurd h1 (by decide)
      · exact toFixed_ne q 2 _ (by decide) h1.symm
    · rcases mem_vfDirective _ _ _ h with h1 | h1
      · exact absurd h1 (by decide)
      · exact absurd h1 (by decide)
    · rw [haudio] at h
      exact absurd (List.mem_singleton.mp h) (by decide)
    · exact absurd (mem_codecPart _ _ _ h) (by decide)
    · exact hout1 h.symm
  · intro hmem
    rcases mem_args_cases _ _ _ _ _ hmem with h | h | h | h | h | h | h | h
    · rcases mem_seekPart _ _ h with h1 | ⟨q, h1⟩
      · exact absurd h1 (by decide)
      · exact toFixed_ne q 2 _ (by decide) h1.symm
    · exact absurd h (by decide)
    · exact hin2 h.symm
    · rcases mem_durPart _ _ h with h1 | ⟨q, h1⟩
      · exact absurd h1 (by decide)
      · exact toFixed_ne q 2 _ (by decide) h1.symm
    · rcases mem_vfDirective _ _ _ h with h1 | h1
      · exact absurd h1 (by decide)
      · exact absurd h1 (by decide)
    · rw [haudio] at h
      exact absurd (List.mem_singleton.mp h) (by decide)
    · rw [hda] at h
      exact codecPart_muted_no_ca format h
    · exact hout2 h.symm

theorem c2_mute_dominance_witness :
    "-an" ∈ buildFfmpegArgs [Operation.mute, Operation.speed 4] OutputFormat.mp4
        "in.mp4" "out.mp4"
    ∧ "-af" ∉ buildFfmpegArgs [Operation.mute, Operation.speed 4] OutputFormat.mp4
        "in.mp4" "out.mp4"
    ∧ "-c:a" ∉ buildFfmpegArgs [Operation.mute, Operation.speed 4] OutputFormat.mp4
        "in.mp4" "out.mp4" :=
  c2_mute_dominance [Operation.mute, Operation.speed 4] OutputFormat.mp4 "in.mp4" "out.mp4"
    (by decide) (by decide) (by decide) (by decide) (by decide)

/-- C3: trim placement — when the first trim has a start greater than 0 the
compiled arguments begin with the seek directive (start at two decimal
places) strictly before the input directive, and when the trim's end
strictly exceeds the start a duration directive with `end - start` (two
decimal places) follows strictly after the input directive; for
`Trim{start=5, end=10}` the duration value is `5.00`. -/
theorem c3_trim_placement (ops : List Operation) (format : OutputFormat)
    (input output : String) (s : ℚ) (e : Option ℚ)
    (hfind : findTrim ops = some (some s, e)) (hs : 0 < s) :
    (∃ rest, buildFfmpegArgs ops format input output
        = "-ss" :: toFixed s 2 :: "-i" :: input :: rest)
    ∧ (∀ ev, e = some ev → s < ev →
        ∃ rest, buildFfmpegArgs ops format input output
          = "-ss" :: toFixed s 2 :: "-i" :: input :: "-t" :: toFixed (ev - s) 2 :: rest)
    ∧ (∃ rest, buildFfmpegArgs [Operation.trim (some 5) (some 10)] OutputFormat.mp4
          input output = "-ss" :: "5.00" :: "-i" :: input :: "-t" :: "5.00" :: rest) := by
  have hseek : seekPart (findTrim ops) = ["-ss", toFixed s 2] := by
    rw [hfind]; simp [seekPart, hs]
  refine ⟨?_, ?_, ?_⟩
  · refine ⟨durPart (findTrim ops) ++ vfDirective ops format
      ++ audioDirective (collectFilters ops).2.1 (collectFilters ops).2.2
      ++ codecPart format (collectFilters ops).2.2 ++ [output], ?_⟩
    simp [buildFfmpegArgs, hseek, List.append_assoc]
  · intro ev he hlt
    subst he
    have h0ev : (0 : ℚ) < ev := lt_trans hs hlt
    have hsub : (0 : ℚ) < ev - s := sub_pos.mpr hlt
    have hdur : durPart (findTrim ops) = ["-t", toFixed (ev - s) 2] := by
      rw [hfind]
      simp only [durPart, Option.getD_some]
      rw [max_eq_right hsub.le, if_pos h0ev, if_pos hsub]
    refine ⟨vfDirective ops format
      ++ audioDirective (collectFilters ops).2.1 (collectFilters ops).2.2
      ++ codecPart format (collectFilters ops).2.2 ++ [output], ?_⟩
    simp [buildFfmpegArgs, hseek, hdur, List.append_assoc]
  · refine ⟨["-c:v", "libx264", "-preset", "veryfast", "-pix_fmt", "yuv420p",
      "-c:a", "aac", "-movflags", "faststart", output], ?_⟩
    norm_num [buildFfmpegArgs, findTrim, seekPart, durPart, vfDirective, videoFiltersOf,
      collectFilters, stepFilters, audioDirective, codecPart, toFixed_five_two,
      (by decide : OutputFormat.mp4 ≠ OutputFormat.gif)]

theorem c3_trim_placement_witness :
    (∃ rest, buildFfmpegArgs [Operation.trim (some 5) (some 10)] OutputFormat.mp4
        "in.mp4" "out.mp4" = "-ss" :: toFixed 5 2 :: "-i" :: "in.mp4" :: rest)
    ∧ (∀ ev, (some (10 : ℚ) : Option ℚ) = some ev → (5 : ℚ) < ev →
        ∃ rest, buildFfmpegArgs [Operation.trim (some 5) (some 10)] OutputFormat.mp4
          "in.mp4" "out.mp4"
          = "-ss" :: toFixed 5 2 :: "-i" :: "in.mp4" :: "-t" :: toFixed (ev - 5) 2 :: rest)
    ∧ (∃ rest, buildFfmpegArgs [Operation.trim (some 5) (some 10)] OutputFormat.mp4
        "in.mp4" "out.mp4" = "-ss" :: "5.00" :: "-i" :: "in.mp4" :: "-t" :: "5.00" :: rest) :=
  c3_trim_placement [Operation.trim (some 5) (some 10)] OutputFormat.mp4 "in.mp4" "out.mp4"
    5 (some 10) rfl (by decide)

/-- C4: gif output handling — for the gif format the frame-rate filter
`fps=12` is the last element of the compiled video-filter chain, every
user-requested filter (in particular the grayscale filter) lies strictly
before it, the arguments contain the loop directive `-loop 0` and contain
no video- or audio-codec directive (the input and output names are assumed
to not collide with the two codec tokens). -/
theorem c4_gif_output (ops : List Operation) (input output : String)
    (hin1 : input ≠ "-c:v") (hin2 : input ≠ "-c:a")
    (hout1 : output ≠ "-c:v") (hout2 : output ≠ "-c:a") :
    (videoFiltersOf ops OutputFormat.gif).getLast? = some "fps=12"
    ∧ (videoFiltersOf ops OutputFormat.gif).dropLast = (collectFilters ops).1
    ∧ (Operation.grayscale ∈ ops →
        "hue=s=0" ∈ (videoFiltersOf ops OutputFormat.gif).dropLast)
    ∧ (∃ pre post, buildFfmpegArgs ops OutputFormat.gif input output
        = pre ++ "-loop" :: "0" :: post)
    ∧ "-c:v" ∉ buildFfmpegArgs ops OutputFormat.gif input output
    ∧ "-c:a" ∉ buildFfmpegArgs ops OutputFormat.gif input output := by
  have hvf : videoFiltersOf ops OutputFormat.gif = (collectFilters ops).1 ++ ["fps=12"] := by
    simp [videoFiltersOf]
  refine ⟨?_, ?_, ?_, ?_, ?_, ?_⟩
  · rw [hvf, List.getLast?_concat]
  · rw [hvf, List.dropLast_concat]
  · intro hg
    rw [hvf, List.dropLast_concat]
    exact collectFilters_grayscale ops hg
  · refine ⟨seekPart (findTrim ops) ++ ["-i", input] ++ durPart (findTrim ops)
      ++ vfDirective ops OutputFormat.gif
      ++ audioDirective (collectFilters ops).2.1 (collectFilters ops).2.2,
      [output], ?_⟩
    simp [buildFfmpegArgs, codecPart, List.append_assoc]
  · intro hmem
    rcases mem_args_cases _ _ _ _ _ hmem with h | h | h | h | h | h | h | h
    · rcases mem_seekPart _ _ h with h1 | ⟨q, h1⟩
      · exact absurd h1 (by decide)
      · exact toFixed_ne q 2 _ (by decide) h1.symm
    · exact absurd h (by decide)
    · exact hin1 h.symm
    · rcases mem_durPart _ _ h with h1 | ⟨q, h1⟩
      · exact absurd h1 (by decide)
      · exact toFixed_ne q 2 _ (by decide) h1.symm
    · rcases mem_vfDirective _ _ _ h with h1 | h1
      · exact absurd h1 (by decide)
      · exact absurd h1 (by decide)
    · rcases mem_audioDirective _ _ _ h with h1 | h1 | h1
      · exact absurd h1 (by decide)
      · exact absurd h1 (by decide)
      · exact absurd h1 (by decide)
    · exact absurd (show ("-c:v" : String) ∈ codecPart OutputFormat.gif
        (collectFilters ops).2.2 from h) (by cases (collectFilters ops).2.2 <;> decide)
    · exact hout1 h.symm
  · intro hmem
    rcases mem_args_cases _ _ _ _ _ hmem with h | h | h | h | h | h | h | h
    · rcases mem_seekPart _ _ h with h1 | ⟨q, h1⟩
      · exact absurd h1 (by decide)
      · exact toFixed_ne q 2 _ (by decide) h1.symm
    · exact absurd h (by decide)
    · exact hin2 h.symm
    · rcases mem_durPart _ _ h with h1 | ⟨q, h1⟩
      · exact absurd h1 (by decide)
      · exact toFixed_ne q 2 _ (by decide) h1.symm
    · rcases mem_vfDirective _ _ _ h with h1 | h1
      · exact absurd h1 (by decide)
      · exact absurd h1 (by decide)
    · rcases mem_audioDirective _ _ _ h with h1 | h1 | h1
      · exact absurd h1 (by decide)
      · exact absurd h1 (by decide)
      · exact absurd h1 (by decide)
    · exact absurd (show ("-c:a" : String) ∈ codecPart OutputFormat.gif
        (collectFilters ops).2.2 from h) (by cases (collectFilters ops).2.2 <;> decide)
    · exact hout2 h.symm

theorem c4_gif_output_witness :
    (videoFiltersOf [Operation.grayscale] OutputFormat.gif).getLast? = some "fps=12"
    ∧ (videoFiltersOf [Operation.grayscale] OutputFormat.gif).dropLast
        = (collectFilters [Operation.grayscale]).1
    ∧ (Operation.grayscale ∈ [Operation.grayscale] →
        "hue=s=0" ∈ (videoFiltersOf [Operation.grayscale] OutputFormat.gif).dropLast)
    ∧ (∃ pre post, buildFfmpegArgs [Operation.grayscale] OutputFormat.gif "in.mp4" "out.gif"
        = pre ++ "-loop" :: "0" :: post)
    ∧ "-c:v" ∉ buildFfmpegArgs [Operation.grayscale] OutputFormat.gif "in.mp4" "out.gif"
    ∧ "-c:a" ∉ buildFfmpegArgs [Operation.grayscale] OutputFormat.gif "in.mp4" "out.gif" :=
  c4_gif_output [Operation.grayscale] "in.mp4" "out.gif"
    (by decide) (by decide) (by decide) (by decide)

/-! ### Tempo chain lemmas for C5 -/

theorem tempoUpGo_prod (fuel : ℕ) : ∀ f : ℚ, (tempoUpGo fuel f).prod = f := by
  induction fuel with
  | zero => intro f; simp [tempoUpGo]
  | succ fuel ih =>
      intro f
      simp only [tempoUpGo]
      split
      · rw [List.prod_cons, ih (f / 2)]; ring
      · simp

theorem tempoDownGo_prod (fuel : ℕ) : ∀ f : ℚ, (tempoDownGo fuel f).prod = f := by
  induction fuel with
  | zero => intro f; simp [tempoDownGo]
  | succ fuel ih =>
      intro f
      simp only [tempoDownGo]
      split
      · rw [List.prod_cons, ih (f * 2)]; ring
      · simp

theorem tempoUpGo_range (fuel : ℕ) :
    ∀ f : ℚ, 1 < f → f ≤ 2 ^ fuel → ∀ x ∈ tempoUpGo fuel f, 1 / 2 ≤ x ∧ x ≤ 2 := by
  induction fuel with
  | zero =>
      intro f h1 h2 x _
      exfalso
      rw [pow_zero] at h2
      linarith
  | succ fuel ih =>
      intro f h1 h2 x hx
      simp only [tempoUpGo] at hx
      split at hx
      · next h2f =>
          rcases List.mem_cons.mp hx with rfl | hx2
          · constructor <;> norm_num
          · refine ih (f / 2) (by linarith) ?_ x hx2
            rw [pow_succ] at h2
            linarith
      · next h2f =>
          push_neg at h2f
          rcases List.mem_singleton.mp hx with rfl
          constructor <;> linarith

theorem tempoDownGo_range (fuel : ℕ) :
    ∀ f : ℚ, 0 < f → f < 1 → 1 ≤ f * 2 ^ fuel →
      ∀ x ∈ tempoDownGo fuel f, 1 / 2 ≤ x ∧ x ≤ 2 := by
  induction fuel with
  | zero =>
      intro f h0 h1 h2 x _
      exfalso
      rw [pow_zero, mul_one] at h2
      linarith
  | succ fuel ih =>
      intro f h0 h1 h2 x hx
      simp only [tempoDownGo] at hx
      split at hx
      · next hf =>
          rcases List.mem_cons.mp hx with rfl | hx2
          · constructor <;> norm_num
          · refine ih (f * 2) (by linarith) (by linarith) ?_ x hx2
            have : f * 2 ^ (fuel + 1) = f * 2 * 2 ^ fuel := by ring
            linarith
      · next hf =>
          push_neg at hf
          rcases List.mem_singleton.mp hx with rfl
          constructor <;> linarith

theorem le_two_pow_ceil (f : ℚ) (h : 2 < f) : f ≤ 2 ^ (⌈f⌉.toNat) := by
  have h0 : (0 : ℤ) ≤ ⌈f⌉ := Int.ceil_nonneg (by linarith)
  have h1 : f ≤ ((⌈f⌉.toNat : ℤ) : ℚ) := by
    rw [Int.toNat_of_nonneg h0]
    exact Int.le_ceil f
  have h2 : ((⌈f⌉.toNat : ℕ) : ℚ) ≤ 2 ^ (⌈f⌉.toNat) := by
    exact_mod_cast (Nat.lt_two_pow (⌈f⌉.toNat)).le
  push_cast at h1
  linarith

theorem one_le_mul_two_pow_den (f : ℚ) (h : 0 < f) : 1 ≤ f * 2 ^ f.den := by
  have hden : (0 : ℚ) < (f.den : ℚ) := by
    exact_mod_cast f.pos
  have hnum : (1 : ℚ) ≤ (f.num : ℚ) := by
    exact_mod_cast Rat.num_pos.mpr h
  have hdne : (f.den : ℚ) ≠ 0 := ne_of_gt hden
  have hmul : f * (f.den : ℚ) = (f.num : ℚ) :=
    ((div_eq_iff hdne).mp (Rat.num_div_den f)).symm
  have hpow : ((f.den : ℕ) : ℚ) ≤ 2 ^ f.den := by
    exact_mod_cast (Nat.lt_two_pow f.den).le
  have : f * (f.den : ℚ) ≤ f * 2 ^ f.den :=
    mul_le_mul_of_nonneg_left hpow h.le
  linarith

/-- C5: tempo chain product invariant — for every factor in `(0, 10]` every
element of the clamped chain lies in `[0.5, 2.0]` and the product of the
chain equals the factor (within the claimed `1e-6` tolerance — here the
model is exact); a factor of 1 yields the empty chain. -/
theorem c5_tempo_chain_invariant (f : ℚ) (h0 : 0 < f) (h10 : f ≤ 10) :
    (∀ x ∈ clampAudioTempoChain f, 1 / 2 ≤ x ∧ x ≤ 2)
    ∧ |(clampAudioTempoChain f).prod - f| ≤ 1 / 1000000
    ∧ clampAudioTempoChain 1 = ([] : List ℚ) := by
  refine ⟨?_, ?_, by rw [clampAudioTempoChain]; simp⟩
  · rw [clampAudioTempoChain]
    split
    · simp
    · split
      · next hin =>
          intro x hx
          rcases List.mem_singleton.mp hx with rfl
          exact hin
      · split
        · next hup =>
            intro x hx
            rw [tempoChainUp] at hx
            exact tempoUpGo_range _ f (by linarith) (le_two_pow_ceil f hup) x hx
        · next hni hup =>
            push_neg at hni hup
            intro x hx
            rw [tempoChainDown] at hx
            have hlt : f < 1 / 2 := by
              by_contra hge
              push_neg at hge
              linarith [hni hge]
            exact tempoDownGo_range _ f h0 (by linarith)
              (one_le_mul_two_pow_den f h0) x hx
  · rw [clampAudioTempoChain]
    split
    · next h1 => subst h1; simp
    · split
      · simp
      · split
        · rw [tempoChainUp, tempoUpGo_prod]; simp
        · rw [tempoChainDown, tempoDownGo_prod]; simp

theorem c5_tempo_chain_invariant_witness :
    (0 : ℚ) < 5 ∧ (5 : ℚ) ≤ 10
    ∧ ((∀ x ∈ clampAudioTempoChain 5, 1 / 2 ≤ x ∧ x ≤ 2)
      ∧ |(clampAudioTempoChain 5).prod - 5| ≤ 1 / 1000000
      ∧ clampAudioTempoChain 1 = ([] : List ℚ)) :=
  ⟨by decide, by decide, c5_tempo_chain_invariant 5 (by decide) (by decide)⟩

/-- C6: canonical order invariant — for every prompt the operations of the
assembled plan appear in the fixed canonical order (trim first, then
grayscale, speed, brightness, crop, mute; equivalently, their ranks are
strictly increasing); the filter collection of the compiler is an
order-preserving fold (it maps concatenation of operation sequences to
concatenation of the video-filter chains); and permuting independent
clauses of a prompt yields an equal plan. -/
theorem c6_canonical_order :
    (∀ prompt : String,
        (((planEditingSteps prompt).operations).map rank).Pairwise (fun a b => a < b))
    ∧ (∀ xs ys : List Operation,
        (collectFilters (xs ++ ys)).1 = (collectFilters xs).1 ++ (collectFilters ys).1)
    ∧ planEditingSteps "Mute the audio and convert the clip to grayscale"
        = planEditingSteps "Convert the clip to grayscale and mute the audio" := by
  refine ⟨?_, ?_, by decide⟩
  · intro prompt
    rcases hT : extractTrim (normalize prompt) with _ | ⟨s, e⟩ <;>
      cases hG : hasGrayscale (normalize prompt) <;>
      rcases hS : extractSpeed (normalize prompt) with _ | fq <;>
      rcases hB : extractBrightness (normalize prompt) with _ | v <;>
      rcases hC : extractCrop (normalize prompt) with _ | m <;>
      cases hM : hasMute (normalize prompt) <;>
      simp [planEditingSteps, hT, hG, hS, hB, hC, hM, rank]
  · intro xs ys
    rw [collectFilters_append]

/-- C7: parser totality and default — `planEditingSteps` is a total
function (it is defined for every string), and when no recognition rule
fires the result is the empty plan with the mp4 output format. -/
theorem c7_parser_totality_default (prompt : String)
    (h : recognizesAny prompt = false) :
    planEditingSteps prompt = { operations := [], outputExtension := OutputFormat.mp4 } := by
  simp only [recognizesAny, Bool.or_eq_false_iff] at h
  obtain ⟨⟨⟨⟨⟨⟨h1, h2⟩, h3⟩, h4⟩, h5⟩, h6⟩, h7⟩ := h
  have hT : extractTrim (normalize prompt) = none := by
    rcases hE : extractTrim (normalize prompt) with _ | x
    · rfl
    · rw [hE] at h1; simp at h1
  have hS : extractSpeed (normalize prompt) = none := by
    rcases hE : extractSpeed (normalize prompt) with _ | x
    · rfl
    · rw [hE] at h3; simp at h3
  have hB : extractBrightness (normalize prompt) = none := by
    rcases hE : extractBrightness (normalize prompt) with _ | x
    · rfl
    · rw [hE] at h4; simp at h4
  have hC : extractCrop (normalize prompt) = none := by
    rcases hE : extractCrop (normalize prompt) with _ | x
    · rfl
    · rw [hE] at h5; simp at h5
  simp [planEditingSteps, hT, h2, hS, hB, hC, h6, h7]

theorem c7_parser_totality_default_witness :
    recognizesAny "please keep it unchanged" = false
    ∧ planEditingSteps "please keep it unchanged"
        = { operations := [], outputExtension := OutputFormat.mp4 } :=
  ⟨by decide, c7_parser_totality_default _ (by decide)⟩

/-- C8: first-trim-wins — the compiled arguments depend only on the first
trim operation of the sequence: deleting every trim that comes after it
leaves the compiled argument list unchanged. -/
theorem c8_first_trim_wins (front rest : List Operation) (a b : Option ℚ)
    (format : OutputFormat) (input output : String)
    (hfront : ∀ op ∈ front, isTrim op = false) :
    buildFfmpegArgs (front ++ Operation.trim a b :: rest) format input output
      = buildFfmpegArgs (front ++ Operation.trim a b ::
          rest.filter (fun op => !isTrim op)) format input output := by
  have hF1 : findTrim (front ++ Operation.trim a b :: rest) = some (a, b) := by
    rw [findTrim_append_notrim front _ hfront]; rfl
  have hF2 : findTrim (front ++ Operation.trim a b ::
      rest.filter (fun op => !isTrim op)) = some (a, b) := by
    rw [findTrim_append_notrim front _ hfront]; rfl
  have hC : collectFilters (front ++ Operation.trim a b :: rest)
      = collectFilters (front ++ Operation.trim a b ::
          rest.filter (fun op => !isTrim op)) := by
    rw [collectFilters_append, collectFilters_append, collectFilters_cons,
        collectFilters_cons, collectFilters_filter_trims]
  simp [buildFfmpegArgs, vfDirective, videoFiltersOf, hF1, hF2, hC]

theorem c8_first_trim_wins_witness :
    buildFfmpegArgs ([Operation.grayscale] ++ Operation.trim (some 5) none ::
        [Operation.speed 4, Operation.trim (some 1) (some 2)]) OutputFormat.mp4
        "in.mp4" "out.mp4"
      = buildFfmpegArgs ([Operation.grayscale] ++ Operation.trim (some 5) none ::
          ([Operation.speed 4, Operation.trim (some 1) (some 2)].filter
            (fun op => !isTrim op))) OutputFormat.mp4 "in.mp4" "out.mp4" :=
  c8_first_trim_wins [Operation.grayscale] [Operation.speed 4, Operation.trim (some 1) (some 2)]
    (some 5) none OutputFormat.mp4 "in.mp4" "out.mp4" (by decide)

/-- The duration flag token can only come from the duration segment (or
from an input or output name that collides with it). -/
theorem t_flag_in_dur (ops : List Operation) (format : OutputFormat)
    (input output : String) (hin : input ≠ "-t") (hout : output ≠ "-t")
    (hmem : "-t" ∈ buildFfmpegArgs ops format input output) :
    "-t" ∈ durPart (findTrim ops) := by
  rcases mem_args_cases _ _ _ _ _ hmem with h | h | h | h | h | h | h | h
  · rcases mem_seekPart _ _ h with h1 | ⟨q, h1⟩
    · exact absurd h1 (by decide)
    · exact absurd h1.symm (toFixed_ne q 2 _ (by decide))
  · exact absurd h (by decide)
  · exact absurd h.symm hin
  · exact h
  · rcases mem_vfDirective _ _ _ h with h1 | h1
    · exact absurd h1 (by decide)
    · exact absurd h1 (by decide)
  · rcases mem_audioDirective _ _ _ h with h1 | h1 | h1
    · exact absurd h1 (by decide)
    · exact absurd h1 (by decide)
    · exact absurd h1 (by decide)
  · exact absurd (mem_codecPart _ _ _ h) (by decide)
  · exact absurd h.symm hout

/-- C9: degenerate-trim robustness — even when the first trim's end is not
positive or does not exceed its start, the (total) compiler emits no
duration directive; and whenever a duration directive is emitted its value
is `toFixed d 2` for a strictly positive duration `d` (the input and output
names are assumed to not collide with the flag token). -/
theorem c9_degenerate_trim_safety (ops : List Operation) (format : OutputFormat)
    (input output : String) (hin : input ≠ "-t") (hout : output ≠ "-t") :
    ((∀ s e ev, findTrim ops = some (s, e) → e = some ev → ev ≤ s.getD 0 ∨ ev ≤ 0) →
      "-t" ∉ buildFfmpegArgs ops format input output)
    ∧ ("-t" ∈ buildFfmpegArgs ops format input output →
        ∃ d : ℚ, 0 < d ∧ ∃ pre post,
          buildFfmpegArgs ops format input output = pre ++ "-t" :: toFixed d 2 :: post) := by
  constructor
  · intro hdeg hmem
    have hd := t_flag_in_dur ops format input output hin hout hmem
    have hempty : durPart (findTrim ops) = [] := by
      rcases hf : findTrim ops with _ | ⟨s, e⟩
      · rfl
      · rcases e with _ | ev
        · rfl
        · rcases hdeg s (some ev) ev hf rfl with hle | hle
          · simp only [durPart]
            rcases le_or_lt ev 0 with h0 | h0
            · rw [if_neg (not_lt.mpr h0)]
            · rw [if_pos h0, max_eq_left (sub_nonpos.mpr hle), if_neg (lt_irrefl 0)]
          · simp only [durPart]
            rw [if_neg (not_lt.mpr hle)]
    rw [hempty] at hd
    simp at hd
  · intro hmem
    have hd := t_flag_in_dur ops format input output hin hout hmem
    rcases durPart_shape (findTrim ops) with hsh | ⟨d, hdpos, hsh⟩
    · rw [hsh] at hd; simp at hd
    · refine ⟨d, hdpos, seekPart (findTrim ops) ++ ["-i", input],
        vfDirective ops format
          ++ audioDirective (collectFilters ops).2.1 (collectFilters ops).2.2
          ++ codecPart format (collectFilters ops).2.2 ++ [output], ?_⟩
      simp [buildFfmpegArgs, hsh, List.append_assoc]

theorem c9_degenerate_trim_safety_witness :
    "-t" ∉ buildFfmpegArgs [Operation.trim (some 5) (some 3)] OutputFormat.mp4
        "in.mp4" "out.mp4" := by
  refine (c9_degenerate_trim_safety [Operation.trim (some 5) (some 3)] OutputFormat.mp4
      "in.mp4" "out.mp4" (by decide) (by decide)).1 ?_
  intro s e ev hf he
  simp only [findTrim] at hf
  injection hf with hp
  obtain ⟨hs, he2⟩ := Prod.mk.inj hp
  subst hs
  subst he2
  injection he with hev
  subst hev
  left
  rw [Option.getD_some]
  decide

end VideoAgent
